import Mathlib

/-!
# RingBuffer (AudioSystem/Headers/Containers/RingBuffer.h)

Shallow embedding of the class template
`container::RingBuffer<_Type, _Partitions, _Size>`.

Data model of the embedding (MSVC x64, the only standard library that has
`std::_Array_iterator`): `std::uint8_t` is 8 bits, `unsigned int` and
`std::uint32_t` are 32 bits, `size_t` and `ptrdiff_t` are 64 bits.  Machine
integers are naturals, reduced explicitly where the C++ expression is
evaluated or stored in a fixed-width unsigned type.

* the template arguments `_Partitions` and `_Size` are the explicit
  parameters `Partitions` and `Size` of every operation;
* the object state is the pair `mBuffer`, `mShifts`;
* an iterator into `mBuffer` is its offset from `mBuffer.begin()`, so
  `mBuffer.end()` is the offset `mBuffer.length`;
* `std::copy` is the element by element loop; an access outside the storage
  is undefined behaviour and is the result `none`.
-/

namespace container

/-! ## Fixed-width arithmetic -/

/-- Value of an expression stored in a `std::uint8_t`. -/
def u8 (n : Nat) : Nat := n % 2 ^ 8

/-- Value of an expression evaluated in `unsigned int` / `std::uint32_t`. -/
def u32 (n : Nat) : Nat := n % 2 ^ 32

/-- Value of an expression evaluated in `size_t`. -/
def u64 (n : Nat) : Nat := n % 2 ^ 64

/-! ## Template parameters -/

/-- Template arguments the parameter types and the `static_assert` of the
constructor accept: `_Partitions` is a `std::uint8_t`, `_Size` a
`std::uint32_t`, both positive. -/
def ValidParams (Partitions Size : Nat) : Prop :=
  0 < Partitions ∧ Partitions < 2 ^ 8 ∧ 0 < Size ∧ Size < 2 ^ 32

instance (Partitions Size : Nat) : Decidable (ValidParams Partitions Size) := by
  unfold ValidParams
  exact inferInstance

/-- Extent of the member `mBuffer`:
`static_cast<size_t>(_Size * _Partitions)`; the product is taken in
`unsigned int` and widened afterwards. -/
def mBufferExtent (Partitions Size : Nat) : Nat := u64 (u32 (Size * Partitions))

/-- Extent named by the aliases `BufferIterator` and `BufferConstIterator`:
`static_cast<size_t>(_Size) * _Partitions`; the factor is widened first and
the product is taken in `size_t`. -/
def BufferIteratorExtent (Partitions Size : Nat) : Nat := u64 (u64 Size * Partitions)

/-- The accessors return `mBuffer.begin() + n` and `mBuffer.end()` as a
`BufferIterator`.  The iterator of a `std::array` carries the extent in its
type, so the bodies of `GetPartitionPointer` and of its callers are
well-typed exactly when the extent of the alias is the extent of `mBuffer`. -/
def AccessorsWellTyped (Partitions Size : Nat) : Prop :=
  BufferIteratorExtent Partitions Size = mBufferExtent Partitions Size

instance (Partitions Size : Nat) : Decidable (AccessorsWellTyped Partitions Size) := by
  unfold AccessorsWellTyped
  exact inferInstance

/-! ## Object state -/

/-- Data members of a `RingBuffer<_Type, _Partitions, _Size>` object. -/
structure RingBuffer (α : Type) where
  /-- Storage: `std::array<_Type, static_cast<size_t>(_Size * _Partitions)>`. -/
  mBuffer : List α
  /-- Rotation counter: `std::uint8_t mShifts = 0`. -/
  mShifts : Nat
deriving DecidableEq

/-- A freshly constructed object: `mShifts` is `0`, `mBuffer` has its declared
extent and unspecified (default-initialised) elements. -/
def Fresh {α : Type} (Partitions Size : Nat) (rb : RingBuffer α) : Prop :=
  rb.mShifts = 0 ∧ rb.mBuffer.length = mBufferExtent Partitions Size

/-! ## `std::copy` -/

/-- The loop `std::copy(first, last, mBuffer.begin() + dest)` with the source
range given as a list: each element is stored at the next storage position.
A store outside the storage is undefined behaviour (`none`). -/
def copyInto {α : Type} : List α → Nat → List α → Option (List α)
  | [], _, buf => some buf
  | x :: xs, dest, buf =>
    if dest < buf.length then copyInto xs (dest + 1) (buf.set dest x) else none

/-- The loop `std::copy(begin, begin + n, partition.begin())` with `begin` at
storage offset `start`: the `n` elements read, in order.  A read outside the
storage is undefined behaviour (`none`). -/
def copyFrom {α : Type} (buf : List α) : Nat → Nat → Option (List α)
  | _, 0 => some []
  | start, n + 1 =>
    match buf[start]? with
    | none => none
    | some x => (copyFrom buf (start + 1) n).map (fun rest => x :: rest)

/-- Storage positions touched by a `std::copy` of `n` elements whose storage
side starts at offset `start`. -/
def copyPositions (start n : Nat) : List Nat :=
  (List.range n).map (fun j => start + j)

/-! ## Member functions -/

/-- Translation of `isIndexInRange`: `index < _Partitions`. -/
def isIndexInRange (Partitions : Nat) (index : Nat) : Bool :=
  decide (index < Partitions)

/-- Translation of `ShiftIndex`: `(index + mShifts) % _Partitions`, computed in
`int` and returned as a `std::uint8_t`. -/
def ShiftIndex {α : Type} (Partitions : Nat) (rb : RingBuffer α) (index : Nat) : Nat :=
  u8 ((index + rb.mShifts) % Partitions)

/-- Translation of `Shift`: `mShifts = (mShifts + 1) % _Partitions`, computed in
`int` and stored in a `std::uint8_t`. -/
def Shift {α : Type} (Partitions : Nat) (rb : RingBuffer α) : RingBuffer α :=
  { rb with mShifts := u8 ((rb.mShifts + 1) % Partitions) }

/-- Translation of `GetPartitionPointer`, as an offset from `mBuffer.begin()`:
`mBuffer.begin() + (ShiftIndex(index) * _Size)` with the product taken in
`unsigned int` when the index is in range, `mBuffer.end()` otherwise. -/
def GetPartitionPointer {α : Type} (Partitions Size : Nat) (rb : RingBuffer α)
    (index : Nat) : Nat :=
  if isIndexInRange Partitions index then u32 (ShiftIndex Partitions rb index * Size)
  else rb.mBuffer.length

/-- Translation of `GetPartitionDataConst`. -/
def GetPartitionDataConst {α : Type} (Partitions Size : Nat) (rb : RingBuffer α)
    (index : Nat) : Nat :=
  GetPartitionPointer Partitions Size rb index

/-- Translation of `GetPartitionData`. -/
def GetPartitionData {α : Type} (Partitions Size : Nat) (rb : RingBuffer α)
    (index : Nat) : Nat :=
  GetPartitionPointer Partitions Size rb index

/-- Translation of `FillPartition`:
`std::copy(buffer.begin(), buffer.end(), GetPartitionPointer(partitionIndex))`.
`buffer` is a `std::array<_Type, _Size>`, a list of `Size` elements. -/
def FillPartition {α : Type} (Partitions Size : Nat) (rb : RingBuffer α)
    (partitionIndex : Nat) (buffer : List α) : Option (RingBuffer α) :=
  (copyInto buffer (GetPartitionPointer Partitions Size rb partitionIndex) rb.mBuffer).map
    (fun b => { rb with mBuffer := b })

/-- Storage positions `FillPartition(partitionIndex, buffer)` stores to. -/
def FillPartitionWrites {α : Type} (Partitions Size : Nat) (rb : RingBuffer α)
    (partitionIndex : Nat) : List Nat :=
  copyPositions (GetPartitionPointer Partitions Size rb partitionIndex) Size

/-- Translation of `GetPartitionDataAsArray`:
`begin = GetPartitionPointer(index)`, then
`std::copy(begin, begin + _Size, partition.begin())`. -/
def GetPartitionDataAsArray {α : Type} (Partitions Size : Nat) (rb : RingBuffer α)
    (index : Nat) : Option (List α) :=
  copyFrom rb.mBuffer (GetPartitionPointer Partitions Size rb index) Size

/-- Storage positions `GetPartitionDataAsArray(index)` loads from. -/
def GetPartitionDataAsArrayReads {α : Type} (Partitions Size : Nat) (rb : RingBuffer α)
    (index : Nat) : List Nat :=
  copyPositions (GetPartitionPointer Partitions Size rb index) Size

/-- Translation of `GetBufferSize`: `mBuffer.size()` returned as the 32-bit
`BufferSize`. -/
def GetBufferSize {α : Type} (rb : RingBuffer α) : Nat :=
  u32 rb.mBuffer.length

/-! ## Reachable states -/

/-- States an object of the instantiation can be in: a freshly constructed
object, then any number of `Shift()` calls and of `FillPartition` calls with a
`std::uint8_t` index and a `std::array<_Type, _Size>` argument whose behaviour
is defined. -/
inductive Reachable {α : Type} (Partitions Size : Nat) : RingBuffer α → Prop
  | fresh (rb : RingBuffer α) : Fresh Partitions Size rb → Reachable Partitions Size rb
  | shift (rb : RingBuffer α) :
      Reachable Partitions Size rb → Reachable Partitions Size (Shift Partitions rb)
  | fill (rb rb' : RingBuffer α) (partitionIndex : Nat) (buffer : List α) :
      Reachable Partitions Size rb → partitionIndex < 2 ^ 8 → buffer.length = Size →
      FillPartition Partitions Size rb partitionIndex buffer = some rb' →
      Reachable Partitions Size rb'

/-! ## Construction and call sequences -/

/-- Translation of the constructor `RingBuffer()`.  Its
`static_assert(_Partitions > 0 && _Size > 0, ...)` rejects the program
(`none`) when a template argument is `0`.  Otherwise the object has
`mShifts = 0` (default member initialiser) and a storage of the declared
extent whose elements are default-initialised: `init p` stands for whatever
value position `p` holds. -/
def RingBuffer.construct {α : Type} (Partitions Size : Nat) (init : Nat → α) :
    Option (RingBuffer α) :=
  if 0 < Partitions ∧ 0 < Size then
    some { mBuffer := (List.range (mBufferExtent Partitions Size)).map init, mShifts := 0 }
  else none

/-- The public member functions as calls with their arguments. -/
inductive Call (α : Type) where
  | Shift : Call α
  | FillPartition (partitionIndex : Nat) (buffer : List α) : Call α
  | GetPartitionDataConst (index : Nat) : Call α
  | GetPartitionData (index : Nat) : Call α
  | GetPartitionDataAsArray (index : Nat) : Call α
  | GetBufferSize : Call α

/-- Object state after one call, `none` when the call has undefined
behaviour.  `Shift` and `FillPartition` are the two bodies that assign a
member; the bodies of the four accessors assign none, so they leave the
object as it is (`GetPartitionDataAsArray` after its loads succeeded). -/
def Call.exec {α : Type} (Partitions Size : Nat) :
    Call α → RingBuffer α → Option (RingBuffer α)
  | Call.Shift, rb => some (container.Shift Partitions rb)
  | Call.FillPartition partitionIndex buffer, rb =>
    container.FillPartition Partitions Size rb partitionIndex buffer
  | Call.GetPartitionDataConst _, rb => some rb
  | Call.GetPartitionData _, rb => some rb
  | Call.GetPartitionDataAsArray index, rb =>
    (container.GetPartitionDataAsArray Partitions Size rb index).map (fun _ => rb)
  | Call.GetBufferSize, rb => some rb

/-- Object state after a finite sequence of calls, made in order. -/
def execAll {α : Type} (Partitions Size : Nat) :
    List (Call α) → RingBuffer α → Option (RingBuffer α)
  | [], rb => some rb
  | c :: cs, rb => (c.exec Partitions Size rb).bind (execAll Partitions Size cs)

/-! ## Concrete objects used in the examples -/

/-- A fresh `RingBuffer<_, 3, 5>` whose fifteen elements are all `0`. -/
def rb35 : RingBuffer Nat := { mBuffer := List.replicate 15 0, mShifts := 0 }

/-- A fresh `RingBuffer<_, 255, 16843010>`: the extent of `mBuffer` is
`16843010 * 255` reduced in 32 bits, which is `254`. -/
def rbWrapped : RingBuffer Nat := { mBuffer := List.replicate 254 0, mShifts := 0 }

/-! ## Arithmetic of the address translation -/

theorem u8_of_lt {n : Nat} (h : n < 2 ^ 8) : u8 n = n := Nat.mod_eq_of_lt h

theorem u32_of_lt {n : Nat} (h : n < 2 ^ 32) : u32 n = n := Nat.mod_eq_of_lt h

theorem u64_of_lt {n : Nat} (h : n < 2 ^ 64) : u64 n = n := Nat.mod_eq_of_lt h

theorem mul_lt_two_pow_40 {Partitions Size : Nat} (hv : ValidParams Partitions Size) :
    Size * Partitions < 2 ^ 40 := by
  obtain ⟨_, hP, _, hS⟩ := hv
  calc Size * Partitions < 2 ^ 32 * 2 ^ 8 := Nat.mul_lt_mul_of_lt_of_lt hS hP
    _ = 2 ^ 40 := by norm_num

/-- On accepted template arguments the accessors are well-typed exactly when
the product of the two arguments does not wrap in 32 bits. -/
theorem accessorsWellTyped_iff {Partitions Size : Nat} (hv : ValidParams Partitions Size) :
    AccessorsWellTyped Partitions Size ↔ Partitions * Size < 2 ^ 32 := by
  have h40 := mul_lt_two_pow_40 hv
  obtain ⟨_, _, _, hS⟩ := hv
  unfold AccessorsWellTyped BufferIteratorExtent mBufferExtent
  rw [u64_of_lt (n := Size) (by omega)]
  rw [Nat.mul_comm Partitions Size]
  generalize Size * Partitions = x at h40 ⊢
  unfold u64 u32
  omega

theorem mBufferExtent_of_fits {Partitions Size : Nat} (h : Partitions * Size < 2 ^ 32) :
    mBufferExtent Partitions Size = Partitions * Size := by
  unfold mBufferExtent
  rw [Nat.mul_comm Size Partitions, u32_of_lt h, u64_of_lt (by omega)]

/-! ## The copy loops -/

theorem copyInto_spec {α : Type} (xs : List α) :
    ∀ (dest : Nat) (buf : List α), dest + xs.length ≤ buf.length →
      ∃ out, copyInto xs dest buf = some out ∧ out.length = buf.length ∧
        ∀ p, out[p]? = if dest ≤ p ∧ p < dest + xs.length then xs[p - dest]? else buf[p]? := by
  induction xs with
  | nil =>
    intro dest buf _
    refine ⟨buf, rfl, rfl, fun p => ?_⟩
    have : ¬ (dest ≤ p ∧ p < dest + ([] : List α).length) := by
      simp only [List.length_nil]; omega
    rw [if_neg this]
  | cons x xs ih =>
    intro dest buf h
    simp only [List.length_cons] at h
    have hd : dest < buf.length := by omega
    obtain ⟨out, ho, hl, hp⟩ := ih (dest + 1) (buf.set dest x) (by
      rw [List.length_set]; omega)
    refine ⟨out, ?_, ?_, fun p => ?_⟩
    · simp only [copyInto, if_pos hd]; exact ho
    · rw [hl, List.length_set]
    · rw [hp p]
      simp only [List.length_cons]
      by_cases h1 : dest + 1 ≤ p ∧ p < dest + 1 + xs.length
      · have h2 : dest ≤ p ∧ p < dest + (xs.length + 1) := by omega
        rw [if_pos h1, if_pos h2]
        have h3 : p - dest = (p - (dest + 1)) + 1 := by omega
        rw [h3, List.getElem?_cons_succ]
      · rw [if_neg h1]
        by_cases h4 : p = dest
        · subst h4
          have h2 : p ≤ p ∧ p < p + (xs.length + 1) := by omega
          rw [if_pos h2, Nat.sub_self, List.getElem?_cons_zero, List.getElem?_set_self hd]
        · have h2 : ¬ (dest ≤ p ∧ p < dest + (xs.length + 1)) := by omega
          rw [if_neg h2, List.getElem?_set_ne (Ne.symm h4)]

theorem copyInto_none {α : Type} (xs : List α) :
    ∀ (dest : Nat) (buf : List α), buf.length < dest + xs.length → 0 < xs.length →
      copyInto xs dest buf = none := by
  induction xs with
  | nil => intro dest buf _ h; simp at h
  | cons x xs ih =>
    intro dest buf h _
    simp only [List.length_cons] at h
    by_cases hd : dest < buf.length
    · simp only [copyInto, if_pos hd]
      have hx : 0 < xs.length := by omega
      exact ih (dest + 1) (buf.set dest x) (by rw [List.length_set]; omega) hx
    · simp only [copyInto, if_neg hd]

theorem copyFrom_spec {α : Type} (buf : List α) (n : Nat) :
    ∀ (start : Nat), start + n ≤ buf.length →
      ∃ arr, copyFrom buf start n = some arr ∧ arr.length = n ∧
        ∀ j, j < n → arr[j]? = buf[start + j]? := by
  induction n with
  | zero =>
    intro start _
    exact ⟨[], rfl, rfl, fun j hj => absurd hj (Nat.not_lt_zero j)⟩
  | succ n ih =>
    intro start h
    have hs : start < buf.length := by omega
    obtain ⟨arr, ha, hl, hp⟩ := ih (start + 1) (by omega)
    refine ⟨buf[start] :: arr, ?_, ?_, fun j hj => ?_⟩
    · simp only [copyFrom, List.getElem?_eq_getElem hs, ha, Option.map_some']
    · simp only [List.length_cons, hl]
    · cases j with
      | zero => simp only [List.getElem?_cons_zero, Nat.add_zero, List.getElem?_eq_getElem hs]
      | succ j =>
        rw [List.getElem?_cons_succ, hp j (by omega)]
        congr 1
        omega

theorem copyFrom_none {α : Type} (buf : List α) (n : Nat) :
    ∀ (start : Nat), buf.length < start + n → 0 < n → copyFrom buf start n = none := by
  induction n with
  | zero => intro start _ h; exact absurd h (Nat.lt_irrefl 0)
  | succ n ih =>
    intro start h _
    by_cases hs : start < buf.length
    · have hn : 0 < n := by omega
      simp only [copyFrom, List.getElem?_eq_getElem hs, ih (start + 1) (by omega) hn,
        Option.map_none']
    · have : buf[start]? = none := List.getElem?_eq_none (by omega)
      simp only [copyFrom, this]

/-- Two lists of the same length that agree at every position below it are equal. -/
theorem list_eq_of_getElem? {α : Type} {l₁ l₂ : List α} {n : Nat}
    (h1 : l₁.length = n) (h2 : l₂.length = n) (h : ∀ j, j < n → l₁[j]? = l₂[j]?) :
    l₁ = l₂ := by
  apply List.ext_getElem?
  intro j
  by_cases hj : j < n
  · exact h j hj
  · rw [List.getElem?_eq_none (by omega), List.getElem?_eq_none (by omega)]

theorem copyInto_length {α : Type} (xs : List α) :
    ∀ (dest : Nat) (buf out : List α), copyInto xs dest buf = some out →
      out.length = buf.length := by
  induction xs with
  | nil =>
    intro dest buf out h
    simp only [copyInto, Option.some.injEq] at h
    rw [← h]
  | cons x xs ih =>
    intro dest buf out h
    by_cases hd : dest < buf.length
    · simp only [copyInto, if_pos hd] at h
      rw [ih (dest + 1) (buf.set dest x) out h, List.length_set]
    · simp only [copyInto, if_neg hd] at h
      exact absurd h (by simp)

/-- Reading back the range a copy has just stored gives the stored elements. -/
theorem copyFrom_copyInto_same {α : Type} (buf data : List α) (dest : Nat)
    (h : dest + data.length ≤ buf.length) :
    ∃ out, copyInto data dest buf = some out ∧ copyFrom out dest data.length = some data := by
  obtain ⟨out, ho, hl, hp⟩ := copyInto_spec data dest buf h
  obtain ⟨arr, ha, hal, hap⟩ := copyFrom_spec out data.length dest (by rw [hl]; exact h)
  refine ⟨out, ho, ?_⟩
  rw [ha]
  congr 1
  apply list_eq_of_getElem? hal rfl
  intro j hj
  rw [hap j hj, hp (dest + j)]
  have hc : dest ≤ dest + j ∧ dest + j < dest + data.length := by omega
  rw [if_pos hc, Nat.add_sub_cancel_left]

/-- A copy into one range leaves what is read from a disjoint range as it was. -/
theorem copyFrom_copyInto_disjoint {α : Type} (buf data : List α) (dest start n : Nat)
    (h : dest + data.length ≤ buf.length) (hs : start + n ≤ buf.length)
    (hdis : start + n ≤ dest ∨ dest + data.length ≤ start) :
    ∃ out arr, copyInto data dest buf = some out ∧ copyFrom buf start n = some arr ∧
      copyFrom out start n = some arr := by
  obtain ⟨out, ho, hl, hp⟩ := copyInto_spec data dest buf h
  obtain ⟨arr, ha, hal, hap⟩ := copyFrom_spec buf n start hs
  obtain ⟨arr2, ha2, hal2, hap2⟩ := copyFrom_spec out n start (by rw [hl]; exact hs)
  refine ⟨out, arr, ho, ha, ?_⟩
  rw [ha2]
  congr 1
  apply list_eq_of_getElem? hal2 hal
  intro j hj
  rw [hap2 j hj, hap j hj, hp (start + j)]
  have hc : ¬ (dest ≤ start + j ∧ start + j < dest + data.length) := by omega
  rw [if_neg hc]

/-! ## Rotation counter and address translation -/

theorem Shift_mBuffer {α : Type} (Partitions : Nat) (rb : RingBuffer α) :
    (Shift Partitions rb).mBuffer = rb.mBuffer := rfl

theorem iterate_Shift_mBuffer {α : Type} (Partitions : Nat) (rb : RingBuffer α) (k : Nat) :
    ((Shift Partitions)^[k] rb).mBuffer = rb.mBuffer := by
  induction k with
  | zero => rfl
  | succ k ih => rw [Function.iterate_succ_apply', Shift_mBuffer, ih]

/-- After `k` calls of `Shift()` on an object whose counter is `0`, the counter
is `k % _Partitions`. -/
theorem iterate_Shift_mShifts {α : Type} (Partitions : Nat) (rb : RingBuffer α)
    (hP : 0 < Partitions) (hP8 : Partitions < 2 ^ 8) (h0 : rb.mShifts = 0) (k : Nat) :
    ((Shift Partitions)^[k] rb).mShifts = k % Partitions := by
  induction k with
  | zero => rw [Function.iterate_zero_apply, h0, Nat.zero_mod]
  | succ k ih =>
    rw [Function.iterate_succ_apply']
    show u8 ((((Shift Partitions)^[k] rb).mShifts + 1) % Partitions) = (k + 1) % Partitions
    rw [ih, Nat.mod_add_mod]
    exact u8_of_lt (lt_trans (Nat.mod_lt _ hP) hP8)

/-- The physical partition after `k` calls of `Shift()` on an object whose
counter is `0`. -/
theorem ShiftIndex_iterate_Shift {α : Type} (Partitions : Nat) (rb : RingBuffer α)
    (hP : 0 < Partitions) (hP8 : Partitions < 2 ^ 8) (h0 : rb.mShifts = 0) (i k : Nat) :
    ShiftIndex Partitions ((Shift Partitions)^[k] rb) i = (i + k) % Partitions := by
  unfold ShiftIndex
  rw [iterate_Shift_mShifts Partitions rb hP hP8 h0, Nat.add_mod_mod]
  exact u8_of_lt (lt_trans (Nat.mod_lt _ hP) hP8)

theorem ShiftIndex_eq {α : Type} (Partitions : Nat) (rb : RingBuffer α)
    (hP : 0 < Partitions) (hP8 : Partitions < 2 ^ 8) (i : Nat) :
    ShiftIndex Partitions rb i = (i + rb.mShifts) % Partitions :=
  u8_of_lt (lt_trans (Nat.mod_lt _ hP) hP8)

theorem GetPartitionPointer_inRange {α : Type} (Partitions Size : Nat) (rb : RingBuffer α)
    (i : Nat) (hi : i < Partitions) :
    GetPartitionPointer Partitions Size rb i = u32 (ShiftIndex Partitions rb i * Size) := by
  unfold GetPartitionPointer isIndexInRange
  rw [if_pos (by simpa using hi)]

theorem GetPartitionPointer_outOfRange {α : Type} (Partitions Size : Nat) (rb : RingBuffer α)
    (index : Nat) (h : Partitions ≤ index) :
    GetPartitionPointer Partitions Size rb index = rb.mBuffer.length := by
  unfold GetPartitionPointer isIndexInRange
  rw [if_neg (by simpa using h)]

/-- When the product of the template arguments does not wrap, the slot of a
valid index starts at `physical * _Size` and ends inside the storage extent. -/
theorem slot_bounds {α : Type} {Partitions Size : Nat} (hv : ValidParams Partitions Size)
    (hfit : Partitions * Size < 2 ^ 32) (rb : RingBuffer α) (i : Nat) (hi : i < Partitions) :
    GetPartitionPointer Partitions Size rb i = ((i + rb.mShifts) % Partitions) * Size ∧
      ((i + rb.mShifts) % Partitions) * Size + Size ≤ Partitions * Size := by
  obtain ⟨hP, hP8, _, _⟩ := hv
  have hlt : (i + rb.mShifts) % Partitions < Partitions := Nat.mod_lt _ hP
  have hle : ((i + rb.mShifts) % Partitions + 1) * Size ≤ Partitions * Size :=
    Nat.mul_le_mul_right Size hlt
  rw [Nat.add_mul, Nat.one_mul] at hle
  refine ⟨?_, hle⟩
  rw [GetPartitionPointer_inRange Partitions Size rb i hi, ShiftIndex_eq Partitions rb hP hP8]
  exact u32_of_lt (by omega)

/-- Distinct valid logical indices have distinct physical partitions. -/
theorem physical_ne {Partitions : Nat} (s i j : Nat) (hi : i < Partitions)
    (hj : j < Partitions) (hij : i ≠ j) : (i + s) % Partitions ≠ (j + s) % Partitions := by
  intro h
  have h1 : i ≡ j [MOD Partitions] := Nat.ModEq.add_right_cancel' s h
  have h2 : i % Partitions = j % Partitions := h1
  rw [Nat.mod_eq_of_lt hi, Nat.mod_eq_of_lt hj] at h2
  exact hij h2

/-- Slots of distinct physical partitions do not overlap. -/
theorem slots_disjoint (Size a b : Nat) (h : a ≠ b) :
    b * Size + Size ≤ a * Size ∨ a * Size + Size ≤ b * Size := by
  rcases Nat.lt_or_gt_of_ne h with hlt | hgt
  · right
    have := Nat.mul_le_mul_right Size (Nat.succ_le_of_lt hlt)
    rw [Nat.succ_mul] at this
    exact this
  · left
    have := Nat.mul_le_mul_right Size (Nat.succ_le_of_lt hgt)
    rw [Nat.succ_mul] at this
    exact this

/-! ## Invariant of the reachable states -/

theorem FillPartition_some {α : Type} {Partitions Size : Nat} {rb rb' : RingBuffer α}
    {index : Nat} {buffer : List α}
    (h : FillPartition Partitions Size rb index buffer = some rb') :
    rb'.mShifts = rb.mShifts ∧ rb'.mBuffer.length = rb.mBuffer.length := by
  unfold FillPartition at h
  cases hc : copyInto buffer (GetPartitionPointer Partitions Size rb index) rb.mBuffer with
  | none => rw [hc] at h; exact absurd h (by simp)
  | some out =>
    rw [hc] at h
    simp only [Option.map_some', Option.some.injEq] at h
    subst h
    exact ⟨rfl, copyInto_length _ _ _ _ hc⟩

/-- Every reachable state keeps the storage at its declared extent. -/
theorem Reachable.length_eq {α : Type} {Partitions Size : Nat} {rb : RingBuffer α}
    (hr : Reachable Partitions Size rb) : rb.mBuffer.length = mBufferExtent Partitions Size := by
  induction hr with
  | fresh rb hf => exact hf.2
  | shift rb _ ih => exact ih
  | fill rb rb' index buffer _ _ _ hfill ih => rw [(FillPartition_some hfill).2, ih]

theorem GetPartitionPointer_congr {α : Type} (Partitions Size : Nat) (rb₁ rb₂ : RingBuffer α)
    (index : Nat) (hs : rb₁.mShifts = rb₂.mShifts)
    (hl : rb₁.mBuffer.length = rb₂.mBuffer.length) :
    GetPartitionPointer Partitions Size rb₁ index =
      GetPartitionPointer Partitions Size rb₂ index := by
  unfold GetPartitionPointer ShiftIndex
  rw [hs, hl]

/-- In a reachable state of a well-typed instantiation the storage holds
`_Partitions * _Size` elements. -/
theorem Reachable.length_fits {α : Type} {Partitions Size : Nat} {rb : RingBuffer α}
    (hr : Reachable Partitions Size rb) (hfit : Partitions * Size < 2 ^ 32) :
    rb.mBuffer.length = Partitions * Size := by
  rw [hr.length_eq, mBufferExtent_of_fits hfit]

/-- The logical index one below `i` (cyclically) after one more `Shift()` has
the physical partition `i` had before. -/
theorem physical_pred_after_shift (Partitions i s : Nat) (hP : 0 < Partitions) :
    ((i + Partitions - 1) % Partitions + (s + 1) % Partitions) % Partitions =
      (i + s) % Partitions := by
  rw [← Nat.add_mod]
  have : i + Partitions - 1 + (s + 1) = i + s + Partitions := by omega
  rw [this, Nat.add_mod_right]

/-! ## Properties of the specification -/

/-- C1: for every partition count in 1..255, every partition size, every valid
logical index `i` and every `k`, after exactly `k` calls of `Shift()` on a
freshly constructed buffer the physical partition `ShiftIndex(i)` is
`(i + k) mod partitions`, and `GetPartitionPointer(i)` addresses the offset the
code computes from that partition. -/
theorem C1_physical_index_after_k_shifts {α : Type} (Partitions Size : Nat)
    (rb : RingBuffer α) (i k : Nat)
    (hP : 0 < Partitions) (hP8 : Partitions ≤ 255) (hfresh : Fresh Partitions Size rb)
    (hi : i < Partitions) :
    ShiftIndex Partitions ((Shift Partitions)^[k] rb) i = (i + k) % Partitions ∧
      GetPartitionPointer Partitions Size ((Shift Partitions)^[k] rb) i =
        u32 ((i + k) % Partitions * Size) := by
  have h8 : Partitions < 2 ^ 8 := by omega
  have hs := ShiftIndex_iterate_Shift Partitions rb hP h8 hfresh.1 i k
  refine ⟨hs, ?_⟩
  rw [GetPartitionPointer_inRange Partitions Size _ i hi, hs]

/-- Witness of C1: a fresh 3 x 5 buffer, logical index 2, four shifts, physical
partition `(2 + 4) mod 3 = 0`. -/
theorem C1_physical_index_after_k_shifts_witness :
    (0 < 3 ∧ 3 ≤ 255 ∧ Fresh 3 5 rb35 ∧ 2 < 3) ∧
      (ShiftIndex 3 ((Shift 3)^[4] rb35) 2 = (2 + 4) % 3 ∧
        GetPartitionPointer 3 5 ((Shift 3)^[4] rb35) 2 = u32 ((2 + 4) % 3 * 5)) :=
  ⟨⟨by decide, by decide, ⟨rfl, by decide⟩, by decide⟩,
    C1_physical_index_after_k_shifts 3 5 rb35 2 4 (by decide) (by decide)
      ⟨rfl, by decide⟩ (by decide)⟩

/-- C2: in every reachable state of a well-typed instantiation, for every valid
logical index `i` and every data array of `_Size` elements,
`FillPartition(i, data)` is defined and `GetPartitionDataAsArray(i)` called
right after it returns `data`. -/
theorem C2_fill_then_read {α : Type} (Partitions Size : Nat)
    (hv : ValidParams Partitions Size) (hty : AccessorsWellTyped Partitions Size)
    (rb : RingBuffer α) (hr : Reachable Partitions Size rb)
    (i : Nat) (hi : i < Partitions) (data : List α) (hd : data.length = Size) :
    ∃ rb', FillPartition Partitions Size rb i data = some rb' ∧
      GetPartitionDataAsArray Partitions Size rb' i = some data := by
  have hfit := (accessorsWellTyped_iff hv).1 hty
  have hlen := hr.length_fits hfit
  obtain ⟨hptr, hbound⟩ := slot_bounds hv hfit rb i hi
  subst hd
  obtain ⟨out, ho, hread⟩ := copyFrom_copyInto_same rb.mBuffer data
    (GetPartitionPointer Partitions data.length rb i) (by rw [hptr, hlen]; exact hbound)
  refine ⟨{ rb with mBuffer := out }, ?_, ?_⟩
  · unfold FillPartition
    rw [ho]
    rfl
  · unfold GetPartitionDataAsArray
    rw [GetPartitionPointer_congr Partitions data.length { rb with mBuffer := out } rb i rfl
      (copyInto_length _ _ _ _ ho)]
    exact hread

/-- Witness of C2: on the 3 x 5 buffer after one shift, index 1, data
`[6, 7, 8, 9, 10]`. -/
theorem C2_fill_then_read_witness :
    (ValidParams 3 5 ∧ AccessorsWellTyped 3 5 ∧ Reachable 3 5 (Shift 3 rb35) ∧ 1 < 3 ∧
        [6, 7, 8, 9, 10].length = 5) ∧
      ∃ rb', FillPartition 3 5 (Shift 3 rb35) 1 [6, 7, 8, 9, 10] = some rb' ∧
        GetPartitionDataAsArray 3 5 rb' 1 = some [6, 7, 8, 9, 10] :=
  ⟨⟨by decide, by decide, Reachable.shift _ (Reachable.fresh _ ⟨rfl, by decide⟩), by decide,
      rfl⟩,
    C2_fill_then_read 3 5 (by decide) (by decide) (Shift 3 rb35)
      (Reachable.shift _ (Reachable.fresh _ ⟨rfl, by decide⟩)) 1 (by decide)
      [6, 7, 8, 9, 10] rfl⟩

/-- C3: in every reachable state of a well-typed instantiation, for any two
distinct valid logical indices `i` and `j` and every data array,
`GetPartitionDataAsArray(j)` returns after `FillPartition(i, data)` the array
it returned before: a write to one logical partition alters no other one,
whatever the rotation offset. -/
theorem C3_fill_preserves_other_partitions {α : Type} (Partitions Size : Nat)
    (hv : ValidParams Partitions Size) (hty : AccessorsWellTyped Partitions Size)
    (rb : RingBuffer α) (hr : Reachable Partitions Size rb)
    (i j : Nat) (hi : i < Partitions) (hj : j < Partitions) (hij : i ≠ j)
    (data : List α) (hd : data.length = Size) :
    ∃ rb' arr, FillPartition Partitions Size rb i data = some rb' ∧
      GetPartitionDataAsArray Partitions Size rb j = some arr ∧
      GetPartitionDataAsArray Partitions Size rb' j = some arr := by
  have hfit := (accessorsWellTyped_iff hv).1 hty
  have hlen := hr.length_fits hfit
  obtain ⟨hpi, hbi⟩ := slot_bounds hv hfit rb i hi
  obtain ⟨hpj, hbj⟩ := slot_bounds hv hfit rb j hj
  have hne := physical_ne rb.mShifts i j hi hj hij
  have hdis := slots_disjoint Size _ _ hne
  subst hd
  obtain ⟨out, arr, ho, ha, ha2⟩ := copyFrom_copyInto_disjoint rb.mBuffer data
    (GetPartitionPointer Partitions data.length rb i)
    (GetPartitionPointer Partitions data.length rb j) data.length
    (by rw [hpi, hlen]; exact hbi) (by rw [hpj, hlen]; exact hbj)
    (by rw [hpi, hpj]; exact hdis)
  refine ⟨{ rb with mBuffer := out }, arr, ?_, ha, ?_⟩
  · unfold FillPartition
    rw [ho]
    rfl
  · unfold GetPartitionDataAsArray
    rw [GetPartitionPointer_congr Partitions data.length { rb with mBuffer := out } rb j rfl
      (copyInto_length _ _ _ _ ho)]
    exact ha2

/-- Witness of C3: on the 3 x 5 buffer after one shift, a fill of index 0 and a
read of index 2. -/
theorem C3_fill_preserves_other_partitions_witness :
    (ValidParams 3 5 ∧ AccessorsWellTyped 3 5 ∧ Reachable 3 5 (Shift 3 rb35) ∧ 0 < 3 ∧ 2 < 3 ∧
        0 ≠ 2 ∧ [1, 2, 3, 4, 5].length = 5) ∧
      ∃ rb' arr, FillPartition 3 5 (Shift 3 rb35) 0 [1, 2, 3, 4, 5] = some rb' ∧
        GetPartitionDataAsArray 3 5 (Shift 3 rb35) 2 = some arr ∧
        GetPartitionDataAsArray 3 5 rb' 2 = some arr :=
  ⟨⟨by decide, by decide, Reachable.shift _ (Reachable.fresh _ ⟨rfl, by decide⟩), by decide,
      by decide, by decide, rfl⟩,
    C3_fill_preserves_other_partitions 3 5 (by decide) (by decide) (Shift 3 rb35)
      (Reachable.shift _ (Reachable.fresh _ ⟨rfl, by decide⟩)) 0 2 (by decide) (by decide)
      (by decide) [1, 2, 3, 4, 5] rfl⟩

/-- C4: in every reachable state of a well-typed instantiation, for every valid
logical index `i` and every data array, after `FillPartition(i, data)` and
exactly one `Shift()`, `GetPartitionDataAsArray` at the index
`(i - 1) mod partitions` (written `(i + partitions - 1) % partitions`, which is
`partitions - 1` for `i = 0`) returns `data`. -/
theorem C4_fill_shift_read_previous {α : Type} (Partitions Size : Nat)
    (hv : ValidParams Partitions Size) (hty : AccessorsWellTyped Partitions Size)
    (rb : RingBuffer α) (hr : Reachable Partitions Size rb)
    (i : Nat) (hi : i < Partitions) (data : List α) (hd : data.length = Size) :
    ∃ rb', FillPartition Partitions Size rb i data = some rb' ∧
      GetPartitionDataAsArray Partitions Size (Shift Partitions rb')
        ((i + Partitions - 1) % Partitions) = some data := by
  have hfit := (accessorsWellTyped_iff hv).1 hty
  have hlen := hr.length_fits hfit
  have hP : 0 < Partitions := hv.1
  have hP8 : Partitions < 2 ^ 8 := hv.2.1
  obtain ⟨hptr, hbound⟩ := slot_bounds hv hfit rb i hi
  subst hd
  obtain ⟨out, ho, hread⟩ := copyFrom_copyInto_same rb.mBuffer data
    (GetPartitionPointer Partitions data.length rb i) (by rw [hptr, hlen]; exact hbound)
  refine ⟨{ rb with mBuffer := out }, ?_, ?_⟩
  · unfold FillPartition
    rw [ho]
    rfl
  · unfold GetPartitionDataAsArray
    have hq : GetPartitionPointer Partitions data.length
        (Shift Partitions { rb with mBuffer := out }) ((i + Partitions - 1) % Partitions) =
        GetPartitionPointer Partitions data.length rb i := by
      rw [(slot_bounds hv hfit _ _ (Nat.mod_lt _ hP)).1, hptr]
      show ((i + Partitions - 1) % Partitions + u8 ((rb.mShifts + 1) % Partitions)) %
        Partitions * data.length = (i + rb.mShifts) % Partitions * data.length
      rw [u8_of_lt (lt_trans (Nat.mod_lt _ hP) hP8),
        physical_pred_after_shift Partitions i rb.mShifts hP]
    rw [hq]
    exact hread

/-- Witness of C4: on the fresh 3 x 5 buffer, a fill of index 0, one shift, and
a read of index 2. -/
theorem C4_fill_shift_read_previous_witness :
    (ValidParams 3 5 ∧ AccessorsWellTyped 3 5 ∧ Reachable 3 5 rb35 ∧ 0 < 3 ∧
        [1, 2, 3, 4, 5].length = 5) ∧
      ∃ rb', FillPartition 3 5 rb35 0 [1, 2, 3, 4, 5] = some rb' ∧
        GetPartitionDataAsArray 3 5 (Shift 3 rb') ((0 + 3 - 1) % 3) = some [1, 2, 3, 4, 5] :=
  ⟨⟨by decide, by decide, Reachable.fresh _ ⟨rfl, by decide⟩, by decide, rfl⟩,
    C4_fill_shift_read_previous 3 5 (by decide) (by decide) rb35
      (Reachable.fresh _ ⟨rfl, by decide⟩) 0 (by decide) [1, 2, 3, 4, 5] rfl⟩

/-- C5: for every partition count in 1..255, after exactly `partitions` calls
of `Shift()` on a freshly constructed buffer every valid logical index maps to
the physical partition of the same number. -/
theorem C5_full_cycle_is_identity {α : Type} (Partitions Size : Nat) (rb : RingBuffer α)
    (i : Nat) (hP : 0 < Partitions) (hP8 : Partitions ≤ 255)
    (hfresh : Fresh Partitions Size rb) (hi : i < Partitions) :
    ShiftIndex Partitions ((Shift Partitions)^[Partitions] rb) i = i := by
  rw [ShiftIndex_iterate_Shift Partitions rb hP (by omega) hfresh.1, Nat.add_mod_right,
    Nat.mod_eq_of_lt hi]

/-- Witness of C5: the fresh 3 x 5 buffer, three shifts, logical index 1. -/
theorem C5_full_cycle_is_identity_witness :
    (0 < 3 ∧ 3 ≤ 255 ∧ Fresh 3 5 rb35 ∧ 1 < 3) ∧ ShiftIndex 3 ((Shift 3)^[3] rb35) 1 = 1 :=
  ⟨⟨by decide, by decide, ⟨rfl, by decide⟩, by decide⟩,
    C5_full_cycle_is_identity 3 5 rb35 1 (by decide) (by decide) ⟨rfl, by decide⟩ (by decide)⟩

/-- C6, as stated, fails: `RingBuffer<_, 255, 16843010>` is an instantiation the
parameter types allow, its storage extent `_Size * _Partitions` wraps in 32
bits to `254`, and `GetBufferSize()` of the fresh object returns `254`, not
`255 * 16843010 = 4294967550`. -/
theorem C6_buffer_size_counterexample :
    ValidParams 255 16843010 ∧ Reachable 255 16843010 rbWrapped ∧
      GetBufferSize rbWrapped = 254 ∧ GetBufferSize rbWrapped ≠ 255 * 16843010 :=
  have hlen : rbWrapped.mBuffer.length = 254 := List.length_replicate 254 0
  have hsize : GetBufferSize rbWrapped = 254 := by
    unfold GetBufferSize
    rw [hlen]
    decide
  ⟨by decide, Reachable.fresh _ ⟨rfl, by rw [hlen]; decide⟩, hsize, by rw [hsize]; decide⟩

/-- C6, amended: for every instantiation whose product
`partitions x partitionSize` is below `2^32`, and every state reached
by `Shift` and `FillPartition` calls, `GetBufferSize()` returns exactly
`partitions x partitionSize`. -/
theorem C6_buffer_size_when_product_fits {α : Type} (Partitions Size : Nat)
    (hfit : Partitions * Size < 2 ^ 32)
    (rb : RingBuffer α) (hr : Reachable Partitions Size rb) :
    GetBufferSize rb = Partitions * Size := by
  unfold GetBufferSize
  rw [hr.length_fits hfit]
  exact u32_of_lt hfit

/-- Witness of amended C6: the 3 x 5 buffer after one shift holds 15 elements. -/
theorem C6_buffer_size_when_product_fits_witness :
    (3 * 5 < 2 ^ 32 ∧ Reachable 3 5 (Shift 3 rb35)) ∧
      GetBufferSize (Shift 3 rb35) = 3 * 5 :=
  ⟨⟨by decide, Reachable.shift _ (Reachable.fresh _ ⟨rfl, by decide⟩)⟩,
    C6_buffer_size_when_product_fits 3 5 (by decide) (Shift 3 rb35)
      (Reachable.shift _ (Reachable.fresh _ ⟨rfl, by decide⟩))⟩

/-- C7 at its failing input: on a fresh 3-partition buffer of 15 elements, the
out-of-range indices 3 and 255 make `GetPartitionPointer` return the offset
15 (`mBuffer.end()`); `FillPartition` stores to and `GetPartitionDataAsArray`
loads from the positions 15..19, none of which is inside `[0, 15)`, so both
calls are undefined. -/
theorem C7_out_of_range_index_accesses_outside_storage :
    Reachable 3 5 rb35 ∧ rb35.mBuffer.length = 3 * 5 ∧
      FillPartitionWrites 3 5 rb35 3 = [15, 16, 17, 18, 19] ∧
      GetPartitionDataAsArrayReads 3 5 rb35 3 = [15, 16, 17, 18, 19] ∧
      FillPartitionWrites 3 5 rb35 255 = [15, 16, 17, 18, 19] ∧
      GetPartitionDataAsArrayReads 3 5 rb35 255 = [15, 16, 17, 18, 19] ∧
      (∀ p ∈ FillPartitionWrites 3 5 rb35 3, ¬ p < 3 * 5) ∧
      (∀ p ∈ GetPartitionDataAsArrayReads 3 5 rb35 3, ¬ p < 3 * 5) ∧
      GetPartitionDataAsArray 3 5 rb35 3 = none ∧
      GetPartitionDataAsArray 3 5 rb35 255 = none :=
  ⟨Reachable.fresh _ ⟨rfl, by decide⟩, by decide, by decide, by decide, by decide, by decide,
    by decide, by decide, by decide, by decide⟩

/-- C8 at its failing input: on a fresh 3-partition buffer, `FillPartition` with
the out-of-range index 3 (and 255) is not a call that leaves the object as it
was: the copy starts at `mBuffer.end()`, its first store is already outside
the storage, and the call has no defined resulting state. -/
theorem C8_fill_out_of_range_is_not_a_no_op :
    GetPartitionPointer 3 5 rb35 3 = rb35.mBuffer.length ∧
      FillPartition 3 5 rb35 3 [1, 2, 3, 4, 5] = none ∧
      FillPartition 3 5 rb35 255 [1, 2, 3, 4, 5] = none ∧
      FillPartition 3 5 rb35 3 [1, 2, 3, 4, 5] ≠ some rb35 :=
  ⟨by decide, by decide, by decide, by decide⟩

/-- C9: for every logical index `>= partitions`, every storage content and
every rotation offset `s`, `GetPartitionData(index)` and
`GetPartitionDataConst(index)` return the end-of-storage position (the offset
equal to the storage length), whatever `s` is; the functions are total, no
error is raised. -/
theorem C9_out_of_range_view_is_end {α : Type} (Partitions Size : Nat) (rb : RingBuffer α)
    (s index : Nat) (h : Partitions ≤ index) :
    GetPartitionData Partitions Size { rb with mShifts := s } index = rb.mBuffer.length ∧
      GetPartitionDataConst Partitions Size { rb with mShifts := s } index =
        rb.mBuffer.length := by
  unfold GetPartitionData GetPartitionDataConst
  rw [GetPartitionPointer_outOfRange Partitions Size _ index h]
  exact ⟨rfl, rfl⟩

/-- Witness of C9: index 200 on a 3 x 5 buffer with rotation offset 2. -/
theorem C9_out_of_range_view_is_end_witness :
    3 ≤ 200 ∧
      (GetPartitionData 3 5 { rb35 with mShifts := 2 } 200 = rb35.mBuffer.length ∧
        GetPartitionDataConst 3 5 { rb35 with mShifts := 2 } 200 = rb35.mBuffer.length) :=
  ⟨by decide, C9_out_of_range_view_is_end 3 5 rb35 2 200 (by decide)⟩

/-- C10: in every reachable state of a well-typed instantiation, for every
valid logical index `i`, `GetPartitionDataAsArray(i)` returns an array of
exactly `_Size` elements whose element `j` is the storage element at position
`((i + mShifts) mod partitions) * _Size + j`, a position inside the storage. -/
theorem C10_array_is_copy_of_physical_slot {α : Type} (Partitions Size : Nat)
    (hv : ValidParams Partitions Size) (hty : AccessorsWellTyped Partitions Size)
    (rb : RingBuffer α) (hr : Reachable Partitions Size rb) (i : Nat) (hi : i < Partitions) :
    ∃ arr, GetPartitionDataAsArray Partitions Size rb i = some arr ∧ arr.length = Size ∧
      ∀ j, j < Size →
        (i + rb.mShifts) % Partitions * Size + j < rb.mBuffer.length ∧
          arr[j]? = rb.mBuffer[(i + rb.mShifts) % Partitions * Size + j]? := by
  have hfit := (accessorsWellTyped_iff hv).1 hty
  have hlen := hr.length_fits hfit
  obtain ⟨hptr, hbound⟩ := slot_bounds hv hfit rb i hi
  obtain ⟨arr, ha, hal, hap⟩ := copyFrom_spec rb.mBuffer Size
    (GetPartitionPointer Partitions Size rb i) (by rw [hptr, hlen]; exact hbound)
  refine ⟨arr, ha, hal, fun j hj => ⟨by omega, ?_⟩⟩
  rw [hap j hj, hptr]

/-- Witness of C10: logical index 2 of the 3 x 5 buffer after one shift. -/
theorem C10_array_is_copy_of_physical_slot_witness :
    (ValidParams 3 5 ∧ AccessorsWellTyped 3 5 ∧ Reachable 3 5 (Shift 3 rb35) ∧ 2 < 3) ∧
      ∃ arr, GetPartitionDataAsArray 3 5 (Shift 3 rb35) 2 = some arr ∧ arr.length = 5 ∧
        ∀ j, j < 5 →
          (2 + (Shift 3 rb35).mShifts) % 3 * 5 + j < (Shift 3 rb35).mBuffer.length ∧
            arr[j]? = (Shift 3 rb35).mBuffer[(2 + (Shift 3 rb35).mShifts) % 3 * 5 + j]? :=
  ⟨⟨by decide, by decide, Reachable.shift _ (Reachable.fresh _ ⟨rfl, by decide⟩), by decide⟩,
    C10_array_is_copy_of_physical_slot 3 5 (by decide) (by decide) (Shift 3 rb35)
      (Reachable.shift _ (Reachable.fresh _ ⟨rfl, by decide⟩)) 2 (by decide)⟩

/-- C11: `Shift()` moves no data: in every state (reachable or not) the storage
after the call is the storage before it, element for element, and the
resulting object differs from the original in the rotation offset only. -/
theorem C11_shift_moves_no_data {α : Type} (Partitions : Nat) (rb : RingBuffer α) :
    (Shift Partitions rb).mBuffer = rb.mBuffer ∧
      (∀ p : Nat, (Shift Partitions rb).mBuffer[p]? = rb.mBuffer[p]?) ∧
      Shift Partitions rb = { rb with mShifts := (Shift Partitions rb).mShifts } :=
  ⟨rfl, fun _ => rfl, rfl⟩

/-- C12: construction succeeds if and only if `partitions > 0` and
`partitionSize > 0`; with a zero argument the `static_assert` rejects it and
no object exists, and every object it yields is fresh, with rotation
offset `0`. -/
theorem C12_construction_iff_positive {α : Type} (Partitions Size : Nat) (init : Nat → α) :
    ((∃ rb, RingBuffer.construct Partitions Size init = some rb) ↔
        (0 < Partitions ∧ 0 < Size)) ∧
      ((Partitions = 0 ∨ Size = 0) ↔ RingBuffer.construct Partitions Size init = none) ∧
      (∀ rb ∈ RingBuffer.construct Partitions Size init,
        rb.mShifts = 0 ∧ Fresh Partitions Size rb) := by
  unfold RingBuffer.construct
  by_cases h : 0 < Partitions ∧ 0 < Size
  · rw [if_pos h]
    refine ⟨⟨fun _ => h, fun _ => ⟨_, rfl⟩⟩, ⟨fun h0 => by omega, fun hn => by simp at hn⟩, ?_⟩
    intro rb hrb
    simp only [Option.mem_def, Option.some.injEq] at hrb
    subst hrb
    exact ⟨rfl, rfl, by simp⟩
  · rw [if_neg h]
    refine ⟨⟨fun ⟨_, hrb⟩ => by simp at hrb, fun h1 => absurd h1 h⟩,
      ⟨fun _ => rfl, fun _ => by omega⟩, ?_⟩
    intro rb hrb
    simp at hrb

/-- A list of fifteen elements, spelled out. -/
theorem list_length_15 {α : Type} (l : List α) (h : l.length = 15) :
    ∃ a0 a1 a2 a3 a4 a5 a6 a7 a8 a9 a10 a11 a12 a13 a14 : α,
      l = [a0, a1, a2, a3, a4, a5, a6, a7, a8, a9, a10, a11, a12, a13, a14] := by
  match l, h with
  | [a0, a1, a2, a3, a4, a5, a6, a7, a8, a9, a10, a11, a12, a13, a14], _ =>
    exact ⟨a0, a1, a2, a3, a4, a5, a6, a7, a8, a9, a10, a11, a12, a13, a14, rfl⟩

/-- C13: the scenario on a 3 x 5 buffer.  `v n` is the element with value `n`
(the `float` `n` for `RingBuffer<float, 3, 5>`).  On every fresh buffer,
whatever its initial contents, the three fills are defined; then partition 0
reads `[1,2,3,4,5]`; after one `Shift()` partition 0 reads `[6,7,8,9,10]` and
partition 2 reads `[1,2,3,4,5]`; after three shifts in total partition 0 reads
`[1,2,3,4,5]` again. -/
theorem C13_three_by_five_scenario {α : Type} (v : Nat → α) (rb : RingBuffer α)
    (h : Fresh 3 5 rb) :
    ∃ r1 r2 r3, FillPartition 3 5 rb 0 [v 1, v 2, v 3, v 4, v 5] = some r1 ∧
      FillPartition 3 5 r1 1 [v 6, v 7, v 8, v 9, v 10] = some r2 ∧
      FillPartition 3 5 r2 2 [v 11, v 12, v 13, v 14, v 15] = some r3 ∧
      GetPartitionDataAsArray 3 5 r3 0 = some [v 1, v 2, v 3, v 4, v 5] ∧
      GetPartitionDataAsArray 3 5 (Shift 3 r3) 0 = some [v 6, v 7, v 8, v 9, v 10] ∧
      GetPartitionDataAsArray 3 5 (Shift 3 r3) 2 = some [v 1, v 2, v 3, v 4, v 5] ∧
      GetPartitionDataAsArray 3 5 (Shift 3 (Shift 3 (Shift 3 r3))) 0 =
        some [v 1, v 2, v 3, v 4, v 5] := by
  obtain ⟨buf, s⟩ := rb
  obtain ⟨hs, hl⟩ := h
  simp only at hs hl
  subst hs
  have he : mBufferExtent 3 5 = 15 := by decide
  rw [he] at hl
  obtain ⟨a0, a1, a2, a3, a4, a5, a6, a7, a8, a9, a10, a11, a12, a13, a14, rfl⟩ :=
    list_length_15 buf hl
  refine ⟨⟨[v 1, v 2, v 3, v 4, v 5, a5, a6, a7, a8, a9, a10, a11, a12, a13, a14], 0⟩,
    ⟨[v 1, v 2, v 3, v 4, v 5, v 6, v 7, v 8, v 9, v 10, a10, a11, a12, a13, a14], 0⟩,
    ⟨[v 1, v 2, v 3, v 4, v 5, v 6, v 7, v 8, v 9, v 10, v 11, v 12, v 13, v 14, v 15], 0⟩,
    ?_, ?_, ?_, ?_, ?_, ?_, ?_⟩
  · rfl
  · rfl
  · rfl
  · rfl
  · simp [GetPartitionDataAsArray, GetPartitionPointer, isIndexInRange, ShiftIndex, Shift, u8,
      u32, copyFrom]
  · simp [GetPartitionDataAsArray, GetPartitionPointer, isIndexInRange, ShiftIndex, Shift, u8,
      u32, copyFrom]
  · simp [GetPartitionDataAsArray, GetPartitionPointer, isIndexInRange, ShiftIndex, Shift, u8,
      u32, copyFrom]

/-- Witness of C13: natural numbers as elements, the buffer that starts with
fifteen zeros. -/
theorem C13_three_by_five_scenario_witness :
    Fresh 3 5 rb35 ∧
      ∃ r1 r2 r3, FillPartition 3 5 rb35 0 [1, 2, 3, 4, 5] = some r1 ∧
        FillPartition 3 5 r1 1 [6, 7, 8, 9, 10] = some r2 ∧
        FillPartition 3 5 r2 2 [11, 12, 13, 14, 15] = some r3 ∧
        GetPartitionDataAsArray 3 5 r3 0 = some [1, 2, 3, 4, 5] ∧
        GetPartitionDataAsArray 3 5 (Shift 3 r3) 0 = some [6, 7, 8, 9, 10] ∧
        GetPartitionDataAsArray 3 5 (Shift 3 r3) 2 = some [1, 2, 3, 4, 5] ∧
        GetPartitionDataAsArray 3 5 (Shift 3 (Shift 3 (Shift 3 r3))) 0 =
          some [1, 2, 3, 4, 5] :=
  ⟨⟨rfl, by decide⟩, C13_three_by_five_scenario (fun n => n) rb35 ⟨rfl, by decide⟩⟩

/-- Every physical partition is the image of a valid logical index. -/
theorem physical_surj (Partitions s p : Nat) (hs : s < Partitions) (hp : p < Partitions) :
    (p + Partitions - s) % Partitions < Partitions ∧
      ((p + Partitions - s) % Partitions + s) % Partitions = p := by
  have hP : 0 < Partitions := by omega
  refine ⟨Nat.mod_lt _ hP, ?_⟩
  rw [Nat.mod_add_mod]
  have : p + Partitions - s + s = p + Partitions := by omega
  rw [this, Nat.add_mod_right, Nat.mod_eq_of_lt hp]

/-- C15: for every partition count in 1..255 and every rotation offset below
it, `i -> ShiftIndex(i) = (i + mShifts) mod partitions` is a bijection of
`{0, ..., partitions - 1}` onto itself: it maps valid indices to physical
partitions, distinct valid indices to distinct partitions, and reaches every
physical partition. -/
theorem C15_ShiftIndex_bijection {α : Type} (Partitions : Nat) (rb : RingBuffer α)
    (hP : 0 < Partitions) (hP8 : Partitions ≤ 255) (hs : rb.mShifts < Partitions) :
    (∀ i, i < Partitions → ShiftIndex Partitions rb i = (i + rb.mShifts) % Partitions) ∧
      (∀ i j, i < Partitions → j < Partitions →
        ShiftIndex Partitions rb i = ShiftIndex Partitions rb j → i = j) ∧
      (∀ p, p < Partitions → ∃ i, i < Partitions ∧ ShiftIndex Partitions rb i = p) ∧
      Set.BijOn (ShiftIndex Partitions rb) (Set.Iio Partitions) (Set.Iio Partitions) := by
  have h8 : Partitions < 2 ^ 8 := by omega
  have heq : ∀ i, ShiftIndex Partitions rb i = (i + rb.mShifts) % Partitions :=
    fun i => ShiftIndex_eq Partitions rb hP h8 i
  have hinj : ∀ i j, i < Partitions → j < Partitions →
      ShiftIndex Partitions rb i = ShiftIndex Partitions rb j → i = j := by
    intro i j hi hj h
    by_contra hne
    rw [heq i, heq j] at h
    exact physical_ne rb.mShifts i j hi hj hne h
  have hsurj : ∀ p, p < Partitions → ∃ i, i < Partitions ∧ ShiftIndex Partitions rb i = p := by
    intro p hp
    obtain ⟨h1, h2⟩ := physical_surj Partitions rb.mShifts p hs hp
    exact ⟨_, h1, by rw [heq]; exact h2⟩
  refine ⟨fun i _ => heq i, hinj, hsurj, ?_, ?_, ?_⟩
  · intro i _
    show ShiftIndex Partitions rb i < Partitions
    rw [heq i]
    exact Nat.mod_lt _ hP
  · intro i hi j hj h
    exact hinj i j hi hj h
  · intro p hp
    obtain ⟨i, hi, h⟩ := hsurj p hp
    exact ⟨i, hi, h⟩

/-- Witness of C15: the 3 x 5 buffer with rotation offset 2. -/
theorem C15_ShiftIndex_bijection_witness :
    (0 < 3 ∧ 3 ≤ 255 ∧ ({ rb35 with mShifts := 2 } : RingBuffer Nat).mShifts < 3) ∧
      ((∀ i, i < 3 → ShiftIndex 3 { rb35 with mShifts := 2 } i =
          (i + ({ rb35 with mShifts := 2 } : RingBuffer Nat).mShifts) % 3) ∧
        (∀ i j, i < 3 → j < 3 →
          ShiftIndex 3 { rb35 with mShifts := 2 } i =
            ShiftIndex 3 { rb35 with mShifts := 2 } j → i = j) ∧
        (∀ p, p < 3 → ∃ i, i < 3 ∧ ShiftIndex 3 { rb35 with mShifts := 2 } i = p) ∧
        Set.BijOn (ShiftIndex 3 { rb35 with mShifts := 2 }) (Set.Iio 3) (Set.Iio 3)) :=
  ⟨⟨by decide, by decide, by decide⟩,
    C15_ShiftIndex_bijection 3 { rb35 with mShifts := 2 } (by decide) (by decide) (by decide)⟩

/-! ## Rotation offset along call sequences -/

/-- One `Shift()` takes the offset `s` to `(s + 1) mod partitions`, a value
below `partitions`; nothing is lost when it is stored in the 8-bit counter. -/
theorem Shift_mShifts {α : Type} (Partitions : Nat) (rb : RingBuffer α)
    (hP : 0 < Partitions) (hP8 : Partitions < 2 ^ 8) :
    (Shift Partitions rb).mShifts = (rb.mShifts + 1) % Partitions ∧
      (Shift Partitions rb).mShifts < Partitions :=
  have h : (Shift Partitions rb).mShifts = (rb.mShifts + 1) % Partitions :=
    u8_of_lt (lt_trans (Nat.mod_lt _ hP) hP8)
  ⟨h, by rw [h]; exact Nat.mod_lt _ hP⟩

/-- A call other than `Shift()` whose behaviour is defined leaves the rotation
offset and the storage length as they were. -/
theorem Call.exec_mShifts_of_ne_Shift {α : Type} (Partitions Size : Nat) (c : Call α)
    (rb rb' : RingBuffer α) (hc : c ≠ Call.Shift)
    (h : c.exec Partitions Size rb = some rb') :
    rb'.mShifts = rb.mShifts ∧ rb'.mBuffer.length = rb.mBuffer.length := by
  cases c with
  | Shift => exact absurd rfl hc
  | FillPartition partitionIndex buffer => exact FillPartition_some h
  | GetPartitionDataConst index =>
    simp only [Call.exec, Option.some.injEq] at h
    subst h
    exact ⟨rfl, rfl⟩
  | GetPartitionData index =>
    simp only [Call.exec, Option.some.injEq] at h
    subst h
    exact ⟨rfl, rfl⟩
  | GetPartitionDataAsArray index =>
    simp only [Call.exec, Option.map_eq_some'] at h
    obtain ⟨_, _, h⟩ := h
    subst h
    exact ⟨rfl, rfl⟩
  | GetBufferSize =>
    simp only [Call.exec, Option.some.injEq] at h
    subst h
    exact ⟨rfl, rfl⟩

/-- A defined call keeps the rotation offset below `partitions`. -/
theorem Call.exec_mShifts_lt {α : Type} (Partitions Size : Nat) (hP : 0 < Partitions)
    (hP8 : Partitions < 2 ^ 8) (c : Call α) (rb rb' : RingBuffer α)
    (hs : rb.mShifts < Partitions) (h : c.exec Partitions Size rb = some rb') :
    rb'.mShifts < Partitions := by
  by_cases hc : c = Call.Shift
  · subst hc
    simp only [Call.exec, Option.some.injEq] at h
    subst h
    exact (Shift_mShifts Partitions rb hP hP8).2
  · rw [(Call.exec_mShifts_of_ne_Shift Partitions Size c rb rb' hc h).1]
    exact hs

/-- Along every sequence of calls whose behaviour is defined the rotation
offset stays below `partitions`. -/
theorem execAll_mShifts_lt {α : Type} (Partitions Size : Nat) (hP : 0 < Partitions)
    (hP8 : Partitions < 2 ^ 8) (calls : List (Call α)) :
    ∀ (rb rb' : RingBuffer α), rb.mShifts < Partitions →
      execAll Partitions Size calls rb = some rb' → rb'.mShifts < Partitions := by
  induction calls with
  | nil =>
    intro rb rb' hs h
    simp only [execAll, Option.some.injEq] at h
    subst h
    exact hs
  | cons c cs ih =>
    intro rb rb' hs h
    simp only [execAll, Option.bind_eq_some] at h
    obtain ⟨mid, hmid, hrest⟩ := h
    exact ih mid rb' (Call.exec_mShifts_lt Partitions Size hP hP8 c rb mid hs hmid) hrest

/-- In a reachable state the rotation offset is below `partitions`. -/
theorem Reachable.mShifts_lt {α : Type} {Partitions Size : Nat} {rb : RingBuffer α}
    (hr : Reachable Partitions Size rb) (hP : 0 < Partitions) (hP8 : Partitions < 2 ^ 8) :
    rb.mShifts < Partitions := by
  induction hr with
  | fresh rb hf => rw [hf.1]; exact hP
  | shift rb _ _ => exact (Shift_mShifts Partitions rb hP hP8).2
  | fill rb rb' index buffer _ _ _ hfill ih => rw [(FillPartition_some hfill).1]; exact ih

/-- After `k` calls of `Shift()` the offset `s < partitions` has become
`(s + k) mod partitions`. -/
theorem iterate_Shift_mShifts_of_lt {α : Type} (Partitions : Nat) (rb : RingBuffer α)
    (hP : 0 < Partitions) (hP8 : Partitions < 2 ^ 8) (hs : rb.mShifts < Partitions) (k : Nat) :
    ((Shift Partitions)^[k] rb).mShifts = (rb.mShifts + k) % Partitions := by
  induction k with
  | zero => rw [Function.iterate_zero_apply, Nat.add_zero, Nat.mod_eq_of_lt hs]
  | succ k ih =>
    rw [Function.iterate_succ_apply', (Shift_mShifts Partitions _ hP hP8).1, ih,
      Nat.mod_add_mod, Nat.add_assoc]

/-- C16 at its failing input: on a fresh 3-partition buffer the call sequence
that consists of `FillPartition(3, ...)` stores to the positions 15..19 behind
the 15 elements of the storage and reaches no defined state, so no rotation
offset in `[0, 3)` is guaranteed after it. -/
theorem C16_invalid_fill_reaches_no_state :
    Fresh 3 5 rb35 ∧ rb35.mBuffer.length = 15 ∧
      FillPartitionWrites 3 5 rb35 3 = [15, 16, 17, 18, 19] ∧
      execAll 3 5 [Call.FillPartition 3 [9, 9, 9, 9, 9]] rb35 = none ∧
      execAll 3 5 [Call.Shift, Call.FillPartition 3 [9, 9, 9, 9, 9], Call.Shift] rb35 = none :=
  ⟨⟨rfl, by decide⟩, by decide, by decide, by decide, by decide⟩

/-- C17 at its failing input: on a fresh 3-partition buffer
`FillPartition(3, ...)` (likewise with index 255) has no defined resulting
state, hence no resulting rotation offset equal to the one before the call. -/
theorem C17_invalid_fill_has_no_resulting_offset :
    Call.exec 3 5 (Call.FillPartition 3 [1, 2, 3, 4, 5]) rb35 = none ∧
      Call.exec 3 5 (Call.FillPartition 255 [1, 2, 3, 4, 5]) rb35 = none ∧
      ¬ ∃ rb', Call.exec 3 5 (Call.FillPartition 3 [1, 2, 3, 4, 5]) rb35 = some rb' ∧
        rb'.mShifts = rb35.mShifts := by
  have h : Call.exec 3 5 (Call.FillPartition 3 [1, 2, 3, 4, 5]) rb35 = none := by decide
  refine ⟨h, by decide, ?_⟩
  rintro ⟨rb', hrb', _⟩
  rw [h] at hrb'
  exact absurd hrb' (by simp)

theorem mem_copyPositions (start n p : Nat) :
    p ∈ copyPositions start n ↔ ∃ j, j < n ∧ start + j = p := by
  simp [copyPositions]

/-- C18: when `partitions x partitionSize < 2^32`, for every rotation offset
(below `partitions` or not) and every valid logical index `i`, in an object
whose storage has its declared extent, the range check passes
(the end-of-storage branch is not taken), the slot `GetPartitionPointer(i)`
addresses ends inside the storage, every position `FillPartition(i, data)`
stores to and `GetPartitionDataAsArray(i)` loads from is a valid storage
index, and both calls are defined. -/
theorem C18_valid_slot_inside_storage {α : Type} (Partitions Size : Nat)
    (hv : ValidParams Partitions Size) (hfit : Partitions * Size < 2 ^ 32)
    (rb : RingBuffer α) (hlen : rb.mBuffer.length = mBufferExtent Partitions Size)
    (i : Nat) (hi : i < Partitions)
    (data : List α) (hd : data.length = Size) :
    isIndexInRange Partitions i = true ∧
      GetPartitionPointer Partitions Size rb i + Size ≤ rb.mBuffer.length ∧
      GetPartitionPointer Partitions Size rb i ≠ rb.mBuffer.length ∧
      (∀ p ∈ FillPartitionWrites Partitions Size rb i, p < rb.mBuffer.length) ∧
      (∀ p ∈ GetPartitionDataAsArrayReads Partitions Size rb i, p < rb.mBuffer.length) ∧
      (∃ rb', FillPartition Partitions Size rb i data = some rb') ∧
      (∃ arr, GetPartitionDataAsArray Partitions Size rb i = some arr) := by
  have hS : 0 < Size := hv.2.2.1
  rw [mBufferExtent_of_fits hfit] at hlen
  obtain ⟨hptr, hbound⟩ := slot_bounds hv hfit rb i hi
  have hin : GetPartitionPointer Partitions Size rb i + Size ≤ rb.mBuffer.length := by
    rw [hptr, hlen]; exact hbound
  have hpos : ∀ p ∈ copyPositions (GetPartitionPointer Partitions Size rb i) Size,
      p < rb.mBuffer.length := by
    intro p hp
    obtain ⟨j, hj, rfl⟩ := (mem_copyPositions _ _ _).1 hp
    omega
  refine ⟨by simpa [isIndexInRange] using hi, hin, by omega, hpos, hpos, ?_, ?_⟩
  · obtain ⟨out, ho, _⟩ := copyInto_spec data (GetPartitionPointer Partitions Size rb i)
      rb.mBuffer (by rw [hd]; exact hin)
    exact ⟨{ rb with mBuffer := out }, by unfold FillPartition; rw [ho]; rfl⟩
  · obtain ⟨arr, ha, _⟩ := copyFrom_spec rb.mBuffer Size
      (GetPartitionPointer Partitions Size rb i) hin
    exact ⟨arr, ha⟩

/-- Witness of C18: index 2 on the 3 x 5 buffer after one shift. -/
theorem C18_valid_slot_inside_storage_witness :
    (ValidParams 3 5 ∧ 3 * 5 < 2 ^ 32 ∧ (Shift 3 rb35).mBuffer.length = mBufferExtent 3 5 ∧
        2 < 3 ∧ [1, 2, 3, 4, 5].length = 5) ∧
      (isIndexInRange 3 2 = true ∧
        GetPartitionPointer 3 5 (Shift 3 rb35) 2 + 5 ≤ (Shift 3 rb35).mBuffer.length ∧
        GetPartitionPointer 3 5 (Shift 3 rb35) 2 ≠ (Shift 3 rb35).mBuffer.length ∧
        (∀ p ∈ FillPartitionWrites 3 5 (Shift 3 rb35) 2, p < (Shift 3 rb35).mBuffer.length) ∧
        (∀ p ∈ GetPartitionDataAsArrayReads 3 5 (Shift 3 rb35) 2,
          p < (Shift 3 rb35).mBuffer.length) ∧
        (∃ rb', FillPartition 3 5 (Shift 3 rb35) 2 [1, 2, 3, 4, 5] = some rb') ∧
        (∃ arr, GetPartitionDataAsArray 3 5 (Shift 3 rb35) 2 = some arr)) :=
  ⟨⟨by decide, by decide, by decide, by decide, rfl⟩,
    C18_valid_slot_inside_storage 3 5 (by decide) (by decide) (Shift 3 rb35) (by decide)
      2 (by decide) [1, 2, 3, 4, 5] rfl⟩

/-- The logical index that `k` shifts bring onto the physical partition of `i`. -/
theorem index_after_shifts (Partitions i k : Nat) (hP : 0 < Partitions) (hi : i < Partitions) :
    (i + Partitions - k % Partitions) % Partitions < Partitions ∧
      ((i + Partitions - k % Partitions) % Partitions + k) % Partitions = i := by
  refine ⟨Nat.mod_lt _ hP, ?_⟩
  have hk : k % Partitions < Partitions := Nat.mod_lt _ hP
  have hdiv := Nat.mod_add_div k Partitions
  rw [Nat.mod_add_mod]
  have : i + Partitions - k % Partitions + k = i + Partitions * (k / Partitions + 1) := by
    rw [Nat.mul_add, Nat.mul_one]
    generalize Partitions * (k / Partitions) = q at hdiv
    omega
  rw [this, Nat.add_mul_mod_self_left, Nat.mod_eq_of_lt hi]

/-- C19: in every reachable state of a well-typed instantiation, for every
valid logical index `i`, every data array and every `k`, after
`FillPartition(i, data)` and exactly `k` calls of `Shift()`,
`GetPartitionDataAsArray(j)` returns `data` for the one `j < partitions` with
`(j + k) mod partitions = i`; when `k` is a multiple of `partitions` that
index is `i`. -/
theorem C19_data_survives_rotations {α : Type} (Partitions Size : Nat)
    (hv : ValidParams Partitions Size) (hty : AccessorsWellTyped Partitions Size)
    (rb : RingBuffer α) (hr : Reachable Partitions Size rb)
    (i : Nat) (hi : i < Partitions) (data : List α) (hd : data.length = Size) (k : Nat) :
    ∃ rb', FillPartition Partitions Size rb i data = some rb' ∧
      (∃ j, j < Partitions ∧ (j + k) % Partitions = i ∧
        (∀ j', j' < Partitions → (j' + k) % Partitions = i → j' = j) ∧
        GetPartitionDataAsArray Partitions Size ((Shift Partitions)^[k] rb') j = some data) ∧
      (Partitions ∣ k →
        GetPartitionDataAsArray Partitions Size ((Shift Partitions)^[k] rb') i = some data) := by
  have hfit := (accessorsWellTyped_iff hv).1 hty
  have hlen := hr.length_fits hfit
  have hP : 0 < Partitions := hv.1
  have hP8 : Partitions < 2 ^ 8 := hv.2.1
  have hs := hr.mShifts_lt hP hP8
  obtain ⟨hptr, hbound⟩ := slot_bounds hv hfit rb i hi
  subst hd
  obtain ⟨out, ho, hread⟩ := copyFrom_copyInto_same rb.mBuffer data
    (GetPartitionPointer Partitions data.length rb i) (by rw [hptr, hlen]; exact hbound)
  have key : ∀ j, j < Partitions → (j + k) % Partitions = i →
      GetPartitionDataAsArray Partitions data.length
        ((Shift Partitions)^[k] { rb with mBuffer := out }) j = some data := by
    intro j hj hjk
    unfold GetPartitionDataAsArray
    have hq : GetPartitionPointer Partitions data.length
        ((Shift Partitions)^[k] { rb with mBuffer := out }) j =
        GetPartitionPointer Partitions data.length rb i := by
      rw [(slot_bounds hv hfit _ j hj).1, hptr,
        iterate_Shift_mShifts_of_lt Partitions { rb with mBuffer := out } hP hP8 hs k]
      show (j + (rb.mShifts + k) % Partitions) % Partitions * data.length =
        (i + rb.mShifts) % Partitions * data.length
      rw [Nat.add_mod_mod, ← hjk, Nat.mod_add_mod]
      congr 2
      omega
    rw [hq, iterate_Shift_mBuffer]
    exact hread
  refine ⟨{ rb with mBuffer := out }, ?_, ?_, ?_⟩
  · unfold FillPartition
    rw [ho]
    rfl
  · obtain ⟨hj, hjk⟩ := index_after_shifts Partitions i k hP hi
    refine ⟨_, hj, hjk, ?_, key _ hj hjk⟩
    intro j' hj' hj'k
    by_contra hne
    exact physical_ne k _ _ hj' hj hne (by rw [hj'k, hjk])
  · rintro ⟨c, rfl⟩
    exact key i hi (by rw [Nat.add_mul_mod_self_left, Nat.mod_eq_of_lt hi])

/-- Witness of C19: on the 3 x 5 buffer after one shift, a fill of index 1 and
three further shifts. -/
theorem C19_data_survives_rotations_witness :
    (ValidParams 3 5 ∧ AccessorsWellTyped 3 5 ∧ Reachable 3 5 (Shift 3 rb35) ∧ 1 < 3 ∧
        [6, 7, 8, 9, 10].length = 5) ∧
      ∃ rb', FillPartition 3 5 (Shift 3 rb35) 1 [6, 7, 8, 9, 10] = some rb' ∧
        (∃ j, j < 3 ∧ (j + 3) % 3 = 1 ∧ (∀ j', j' < 3 → (j' + 3) % 3 = 1 → j' = j) ∧
          GetPartitionDataAsArray 3 5 ((Shift 3)^[3] rb') j = some [6, 7, 8, 9, 10]) ∧
        (3 ∣ 3 → GetPartitionDataAsArray 3 5 ((Shift 3)^[3] rb') 1 = some [6, 7, 8, 9, 10]) :=
  ⟨⟨by decide, by decide, Reachable.shift _ (Reachable.fresh _ ⟨rfl, by decide⟩), by decide,
      rfl⟩,
    C19_data_survives_rotations 3 5 (by decide) (by decide) (Shift 3 rb35)
      (Reachable.shift _ (Reachable.fresh _ ⟨rfl, by decide⟩)) 1 (by decide)
      [6, 7, 8, 9, 10] rfl 3⟩

end container
